import Mathlib

/-!
Verification development for the Origin library (src/lib/origin.js): a
single-inheritance class-composition engine (`extend`, `cls`, `inheritsFrom`,
`superclass`, `parent`) and an event-notification mixin (`Responder`).

The JavaScript code is shallowly embedded as follows.

* A JavaScript object's own enumerable properties are an association list in
  key-insertion order (`getKey` / `setKey` model property read and assignment:
  assignment overwrites in place when the key exists, else appends).
* Function identity is a natural number (`FuncId`); `===` on functions is
  equality of these identifiers.  Classes produced by `extend` are identified
  by their index (`ClassId`) in the world's list of class descriptors; index 0
  is the host `Object` constructor, the root of every prototype chain.
* A `ClassDesc` records what `extend` builds for one class: the own enumerable
  properties of its `prototype` object (`protoOwn`, which contains the
  `constructor` slot and the `options.properties` copied in), the
  `[[Prototype]]` link installed by `Object.create(parent.prototype)`
  (`protoParent`), and the own enumerable properties of the constructor
  function itself (`classProps`, the class-level members, including the
  `_parent` back link that `extend` stamps).
* The mutable `_class` stamp that `extend` writes onto the chosen initializer
  function (`prototype.constructor._class = constructorFunc`) is the
  world-level map `funcClass` from function identity to class identity;
  re-stamping overwrites the previous entry, exactly as property assignment
  does in JavaScript.
* Fresh function objects (the default initializer closure created when
  `options.initializer` is absent) draw identities from the counter
  `nextFunc`.
* Instances are `Obj` values: own properties plus the `[[Prototype]]` link to
  the class whose constructor made them.  Invoking a class is `constructorFunc`
  below: it copies `Object.keys(prototype)` onto the fresh instance; the
  subsequent run of the initializer body is opaque application code and is not
  modelled (all claims below concern the state the constructor establishes
  before the body runs, plus the built-in methods, which never depend on the
  body).
* The shims built by `parent()` are `ShimEntry` values: a callable member
  becomes `ShimEntry.wrapped v self`, denoting the JavaScript closure
  `function () \x7b return v.apply(self, arguments); \x7d`; invoking such a
  wrapper is `invokeShim`, which yields the call it performs: the original
  member, the receiver as `this`, and the forwarded argument list.
* The Responder mixin's per-instance registries (`_responderCallbacks`) are
  modelled by `RState`; each registration record pushed by `on` receives a
  fresh identity `rid` (records are distinct JavaScript objects, and
  underscore's `union`/`difference` compare them by identity).  Event records
  dispatched by `repeat` are `Dispatch` values carrying the identity of the
  fresh shallow clone (`copyId`) handed to that callback.

Restrictions of the modelled universe, stated once here: option bundles passed
to `extend` use existing function objects as initializers (`OptsOk` bounds the
identifier by `nextFunc`) and do not contain a property literally named
"constructor" (which would clobber the constructor slot the code just wrote);
event names are non-empty strings (`on` coerces a falsy name to "all", which
for absent names is `Option.getD`); explicit `undefined` values inside option
bundles are not modelled, so `classProperties[key] === undefined` is key
absence.
-/

namespace Origin

/-- Read an own property of a JavaScript object: first entry with the key. -/
def getKey {α β : Type} [DecidableEq α] : List (α × β) → α → Option β
  | [], _ => none
  | e :: rest, k => if e.1 = k then some e.2 else getKey rest k

/-- Property assignment `obj[k] = v`: overwrite in place if the key exists
(keeping its insertion position), otherwise append the new key. -/
def setKey {α β : Type} [DecidableEq α] (l : List (α × β)) (kv : α × β) :
    List (α × β) :=
  if l.any (fun e => e.1 = kv.1) then
    l.map (fun e => if e.1 = kv.1 then (e.1, kv.2) else e)
  else l ++ [kv]

/-- The keys of a JavaScript object, in insertion order (`Object.keys`). -/
def keysOf {α β : Type} (l : List (α × β)) : List α := l.map Prod.fst

/-- A well-formed object: no duplicate keys. -/
def NoDupKeys {α β : Type} (l : List (α × β)) : Prop := (keysOf l).Nodup

instance {α β : Type} [DecidableEq α] (l : List (α × β)) :
    Decidable (NoDupKeys l) := by
  unfold NoDupKeys
  infer_instance

/-- Identity of a JavaScript function object. -/
abbrev FuncId := Nat

/-- Identity of a class produced by composition (index in the world). -/
abbrev ClassId := Nat

/-- A JavaScript value as far as the claims need: functions (callable),
classes (also callable), strings, numbers.  `===` is `DecidableEq`. -/
inductive Value : Type where
  | fn : FuncId → Value
  | classV : ClassId → Value
  | str : String → Value
  | num : Int → Value
  deriving Repr, DecidableEq

/-- `v instanceof Function`: functions and classes are callable. -/
def Value.isCallable : Value → Bool
  | .fn _ => true
  | .classV _ => true
  | _ => false

/-- The per-class data `extend` builds (src/lib/origin.js, lines 21-72). -/
structure ClassDesc : Type where
  /-- Own enumerable properties of `prototype`: the `constructor` slot written
  on line 36 followed by the `options.properties` copied on lines 37-39. -/
  protoOwn : List (String × Value)
  /-- The `[[Prototype]]` link from `Object.create(parent.prototype)` (line
  24); `none` for `Object.prototype` itself. -/
  protoParent : Option ClassId
  /-- Own enumerable properties of the constructor function: parent class
  members copied down (lines 55-59), `options.classProperties` (lines 62-64),
  and the `_parent` stamp (line 69). -/
  classProps : List (String × Value)
  deriving Repr, DecidableEq

/-- The options bundle accepted by `extend` (lines 27-29). -/
structure Options : Type where
  initializer : Option FuncId
  properties : List (String × Value)
  classProperties : List (String × Value)
  deriving Repr, DecidableEq

/-- The world: all classes composed so far, the `_class` stamps written onto
initializer functions, and the supply of fresh function identities. -/
structure World : Type where
  classes : List ClassDesc
  funcClass : List (FuncId × ClassId)
  nextFunc : FuncId
  deriving Repr, DecidableEq

/-- The host `Object` constructor: `Object.keys(Object.prototype)` and
`Object.keys(Object)` are both empty, and its prototype chain ends. -/
def objectDesc : ClassDesc :=
  { protoOwn := [], protoParent := none, classProps := [] }

/-- FuncId 0 is the `Object` function; 1-5 are the bodies of the built-in
methods `parent`, `cls`, `extend`, `inheritsFrom`, `superclass`. -/
def initWorld : World :=
  { classes := [objectDesc], funcClass := [], nextFunc := 6 }

/-- The class descriptor at an index. -/
def descOf (w : World) (c : ClassId) : Option ClassDesc := w.classes[c]?

/-- Own enumerable properties of a class's prototype. -/
def protoOwnOf (w : World) (c : ClassId) : List (String × Value) :=
  match descOf w c with
  | some d => d.protoOwn
  | none => []

/-- Own enumerable properties of the class (constructor function) itself. -/
def classPropsOf (w : World) (c : ClassId) : List (String × Value) :=
  match descOf w c with
  | some d => d.classProps
  | none => []

/-- `p.constructor` for a prototype object `p` of class `c`: the own
`constructor` slot; `Object.prototype.constructor` is the (non-enumerable)
builtin `Object`, function 0. -/
def protoCtor (w : World) (c : ClassId) : Option Value :=
  if c = 0 then some (Value.fn 0)
  else getKey (protoOwnOf w c) "constructor"

/-- The function identity stamped by `prototype.constructor._class = ...`:
the value of the prototype's `constructor` slot, when it is a function. -/
def stampCtor (d : ClassDesc) : Option FuncId :=
  match getKey d.protoOwn "constructor" with
  | some (Value.fn f) => some f
  | _ => none

/-- `stampCtor` at a world index. -/
def stampAt (w : World) (c : ClassId) : Option FuncId :=
  match descOf w c with
  | some d => stampCtor d
  | none => none

/-- The constructor chosen by `extend` (lines 29-33): the supplied
initializer, or a fresh closure (a fresh function identity) delegating to the
parent's constructor. -/
def chosenCtor (w : World) (options : Options) : FuncId :=
  match options.initializer with
  | some f => f
  | none => w.nextFunc

/-- The own enumerable properties `extend` writes onto the fresh prototype:
`prototype.constructor = constructor` (line 36), then every key of
`options.properties` assigned in order (lines 37-39). -/
def extendProtoOwn (w : World) (options : Options) : List (String × Value) :=
  options.properties.foldl setKey
    (setKey [] ("constructor", Value.fn (chosenCtor w options)))

/-- The own enumerable properties `extend` writes onto the new constructor
function: the parent's class members whose key is not in
`options.classProperties` (lines 55-59; `classProperties[key] === undefined`
is key absence here), then every key of `options.classProperties` (lines
62-64), then the `_parent` stamp (line 69). -/
def extendClassProps (w : World) (parent : ClassId) (options : Options) :
    List (String × Value) :=
  setKey
    (options.classProperties.foldl setKey
      (((classPropsOf w parent).filter
        (fun e => getKey options.classProperties e.1 = none)).foldl setKey []))
    ("_parent", Value.classV parent)

/-- The class descriptor `extend` produces: the prototype built above, its
`[[Prototype]]` link to the parent's prototype (line 24), and the class-level
members. -/
def extendDesc (w : World) (parent : ClassId) (options : Options) : ClassDesc :=
  { protoOwn := extendProtoOwn w options, protoParent := some parent,
    classProps := extendClassProps w parent options }

/-- Function: extend (src/lib/origin.js lines 21-72).  Composes a child class
from `parent` (a class of this world) and an options bundle; returns the new
world and the identity of the new class.  The new world appends the
descriptor, re-stamps `_class` on the prototype's `constructor` function
(line 68), and advances the fresh-function counter when the default
initializer closure was created. -/
def extend (w : World) (parent : ClassId) (options : Options) : World × ClassId :=
  ({ classes := w.classes ++ [extendDesc w parent options],
     funcClass :=
       match getKey (extendProtoOwn w options) "constructor" with
       | some (Value.fn f) => setKey w.funcClass (f, w.classes.length)
       | _ => w.funcClass,
     nextFunc :=
       match options.initializer with
       | some _ => w.nextFunc
       | none => w.nextFunc + 1 }, w.classes.length)

/-- The options bundle of `var Base = extend(Object, {...})` (lines 75-235):
instance properties `parent` and `cls`, class properties `extend`,
`inheritsFrom`, `superclass` (function identities 1-5). -/
def baseOptions : Options :=
  { initializer := none,
    properties := [("parent", Value.fn 1), ("cls", Value.fn 2)],
    classProperties :=
      [("extend", Value.fn 3), ("inheritsFrom", Value.fn 4),
       ("superclass", Value.fn 5)] }

/-- The world after `Base` is composed; `Base` is class 1 (constructor 6). -/
def baseWorld : World := (extend initWorld 0 baseOptions).1

/-- Walk a prototype chain by class identity; the fuel is only a termination
device (the chain of a class with index `c` has at most `c + 1` links, so the
world's class count is always enough fuel). -/
def protoChainAux (w : World) : Nat → Option ClassId → List ClassId
  | 0, _ => []
  | _ + 1, none => []
  | fuel + 1, some c =>
    match descOf w c with
    | none => []
    | some d => c :: protoChainAux w fuel d.protoParent

/-- The prototype chain of class `c`, most derived first, ending at
`Object.prototype` (class 0). -/
def protoChain (w : World) (c : ClassId) : List ClassId :=
  protoChainAux w w.classes.length (some c)

/-- An instance: its own properties and its `[[Prototype]]` link to the
prototype of the class whose constructor made it. -/
structure Obj : Type where
  ownProps : List (String × Value)
  protoCls : Option ClassId
  deriving Repr, DecidableEq

/-- Function: constructorFunc (lines 43-51).  Invoking a class: copy every own
enumerable member of the prototype onto the fresh instance
(`Object.keys(prototype).forEach`, lines 46-48); the instance this leaves is
the state in which the initializer body (line 50, not modelled) then runs. -/
def constructorFunc (w : World) (c : ClassId) : Obj :=
  { ownProps := (protoOwnOf w c).foldl setKey [], protoCls := some c }

/-- Property lookup along the prototype chain starting at class `c`'s
prototype: first level whose own properties contain the key. -/
def chainLookup (w : World) (c : ClassId) (k : String) : Option Value :=
  (protoChain w c).findSome? (fun lv => getKey (protoOwnOf w lv) k)

/-- `this[k]` on an instance: own property first, else the prototype chain. -/
def getMember (w : World) (o : Obj) (k : String) : Option Value :=
  match getKey o.ownProps k with
  | some v => some v
  | none =>
    match o.protoCls with
    | some c => chainLookup w c k
    | none => none

/-- One entry of the mapping `parent()` returns: a callable member becomes a
forwarding wrapper closing over the member and the receiver (the closure
created on lines 101-103); a non-callable member is passed through (line
107). -/
inductive ShimEntry : Type where
  | wrapped : Value → Obj → ShimEntry
  | plain : Value → ShimEntry
  deriving Repr, DecidableEq

/-- The branch inside `createShims` (lines 100-108): wrap callables, pass
other values through. -/
def mkShim (context : Obj) (v : Value) : ShimEntry :=
  if v.isCallable then ShimEntry.wrapped v context else ShimEntry.plain v

/-- Function: createShims (lines 92-111): one shim per own enumerable member
of the given prototype level, each wrapper closing over `context`. -/
def createShims (w : World) (c : ClassId) (context : Obj) :
    List (String × ShimEntry) :=
  (protoOwnOf w c).map (fun kv => (kv.1, mkShim context kv.2))

/-- Calling a shim with an argument list.  A wrapper performs
`v.apply(context, arguments)` (line 102): it calls the original member with
`this` bound to the captured receiver and all arguments forwarded, and its
result is the result of that call; the call performed is returned reified as
(callee, this-binding, arguments).  A plain entry is not a function. -/
def invokeShim : ShimEntry → List Value → Option (Value × Obj × List Value)
  | ShimEntry.wrapped v context, args => some (v, context, args)
  | ShimEntry.plain _, _ => none

/-- The prototype chain walked by `parent` (the loop on lines 125-136 starts
at `Object.getPrototypeOf(this)`, the prototype of the instance's class). -/
def chainOfObj (w : World) (o : Obj) : List ClassId :=
  match o.protoCls with
  | some c => protoChain w c
  | none => []

/-- Function: parent (lines 89-160), called on instance `self`.  Walks the
receiver's prototype chain; once the level whose `constructor` matches
`cls.prototype.constructor` is found, that level and every more ancestral one
is collected (lines 124-136); if no level matches, the ancestor-not-found
error is thrown (lines 140-142); otherwise the collected levels are shimmed
and merged from the most ancestral up (lines 147-154, popping from the end of
the saved list), so a more derived collected level overwrites a less derived
one.  An absent argument or one without a prototype skips the walk entirely
and the empty mapping is returned (the guard on line 117). -/
def parent (w : World) (self : Obj) (cls : Option ClassId) :
    Except String (List (String × ShimEntry)) :=
  match cls with
  | none => Except.ok []
  | some a =>
    match (chainOfObj w self).findIdx?
        (fun lv => protoCtor w lv = protoCtor w a) with
    | none => Except.error
        "The constructor given to parent() is not an ancestor of this object."
    | some i =>
      Except.ok ((((chainOfObj w self).drop i).reverse).foldl
        (fun acc lv => (createShims w lv self).foldl setKey acc) [])

/-- Statement helper: the mapping of a successful `parent` call, the empty
mapping otherwise. -/
def shimsOrEmpty (r : Except String (List (String × ShimEntry))) :
    List (String × ShimEntry) :=
  match r with
  | Except.ok s => s
  | Except.error _ => []

/-- Function: cls (lines 169-171): `this.constructor._class` — look up the
instance's `constructor` member, then the `_class` stamp on that function. -/
def cls (w : World) (o : Obj) : Option ClassId :=
  match getMember w o "constructor" with
  | some (Value.fn f) => getKey w.funcClass f
  | _ => none

/-- Function: inheritsFrom (lines 204-220): false for an absent argument or
one without a prototype; otherwise walk the receiver class's prototype chain
comparing each level's `constructor` against `cls.prototype.constructor`. -/
def inheritsFrom (w : World) (self : ClassId) (cls : Option ClassId) : Bool :=
  match cls with
  | none => false
  | some a => (protoChain w self).any (fun lv => protoCtor w lv = protoCtor w a)

/-- Function: superclass (lines 231-233): `this._parent`. -/
def superclass (w : World) (c : ClassId) : Option Value :=
  getKey (classPropsOf w c) "_parent"

/-!
The Responder mixin (`var Responder = Base.extend({...})`, lines 240-479).
Its observable state is per instance: `this._responderCallbacks`, a JavaScript
object mapping event names to arrays of registration records.  A registration
record is a fresh object `\x7bcallback, context\x7d`; underscore's `union` and
`difference` compare records by identity, which the model reproduces by giving
every record pushed by `on` a fresh identity `rid` drawn from a per-responder
counter.  Callback and context identities are natural numbers; an absent
context is `none`.  Binding records (`bindTo`/`unbindFrom`/`unbindFromAll`)
are not needed by any claim and are not modelled.
-/

/-- A registration record `\x7bcallback: callback, context: context\x7d`
(line 279), with its object identity `rid`. -/
structure CBRec : Type where
  rid : Nat
  callback : FuncId
  context : Option Nat
  deriving Repr, DecidableEq

/-- The `_responderCallbacks` registry of one Responder instance (plus the
supply of fresh record identities).  An event name can be present with an
empty array, which JavaScript distinguishes from an absent key. -/
structure RState : Type where
  callbacks : List (String × List CBRec)
  nextRid : Nat
  deriving Repr, DecidableEq

/-- The registry the initializer creates (line 243). -/
def emptyResponder : RState := { callbacks := [], nextRid := 0 }

/-- Function: on (lines 264-285; `on` is a reserved word in Lean, hence the
suffix).  A falsy event name becomes "all"; no callback means no registration
(false); a duplicate (callback, context) pair under the same name is rejected
(lines 274-282); otherwise a fresh record is pushed and true is returned. -/
def onEv (st : RState) (eventName : Option String) (callback : Option FuncId)
    (context : Option Nat) : RState × Bool :=
  let name := eventName.getD "all"
  match callback with
  | none => (st, false)
  | some cb =>
    let st1 := match getKey st.callbacks name with
      | none => { st with callbacks := setKey st.callbacks (name, []) }
      | some _ => st
    let list := (getKey st1.callbacks name).getD []
    match list.find? (fun r => r.callback = cb ∧ r.context = context) with
    | some _ => (st1, false)
    | none =>
      ({ st1 with
          callbacks := setKey st1.callbacks (name, list ++
            [{ rid := st1.nextRid, callback := cb, context := context }]),
          nextRid := st1.nextRid + 1 }, true)

/-- `und.difference(l, removes)`: the elements of `l` not in `removes`,
comparing by record identity. -/
def difference (l removes : List CBRec) : List CBRec :=
  l.filter (fun r => ¬ removes.contains r)

/-- The name-and-callback branch of `off` (lines 304-314), also the body of
the recursive call `this.off(eventName, callback)` made on line 332 (there
the context argument is absent, so only records whose stored context is also
absent match `cb.context === context`). -/
def offWithCallback (st : RState) (name : String) (cb : FuncId)
    (context : Option Nat) : RState × Bool :=
  match getKey st.callbacks name with
  | none => (st, false)
  | some list =>
    let removes := list.filter (fun r => r.callback = cb ∧ r.context = context)
    if removes.length ≠ 0 then
      ({ st with callbacks := setKey st.callbacks (name, difference list removes) },
       true)
    else (st, false)

/-- The name-and-context branch of `off` (lines 315-325), also the body of the
recursive call `this.off(eventName, null, context)` made on line 338. -/
def offWithContext (st : RState) (name : String) (ctx : Nat) :
    RState × Bool :=
  match getKey st.callbacks name with
  | none => (st, false)
  | some list =>
    let removes := list.filter (fun r => r.context = some ctx)
    if removes.length ≠ 0 then
      ({ st with callbacks := setKey st.callbacks (name, difference list removes) },
       true)
    else (st, false)

/-- Function: off (lines 300-350).  The if/else-if chain, by argument
presence; the two helper functions above carry the branches that the code
also reaches through its recursive `this.off(...)` calls (those recursive
calls always find the iterated key present, so factoring them out is exact).
A present name whose registry entry is missing falls through every guard and
returns false (line 349). -/
def off (st : RState) (eventName : Option String) (callback : Option FuncId)
    (context : Option Nat) : RState × Bool :=
  match eventName, callback, context with
  | some n, some cb, ctx =>
    offWithCallback st n cb ctx
  | some n, none, some ctx =>
    offWithContext st n ctx
  | some n, none, none =>
    match getKey st.callbacks n with
    | some _ =>
      ({ st with callbacks := st.callbacks.filter (fun e => ¬ e.1 = n) }, true)
    | none => (st, false)
  | none, some cb, _ =>
    -- lines 330-335: iterate every event name, dropping the context argument.
    st.callbacks.foldl
      (fun acc e =>
        let r := offWithCallback acc.1 e.1 cb none
        (r.1, r.2 || acc.2))
      (st, false)
  | none, none, some ctx =>
    -- lines 336-341: iterate every event name with the context only.
    st.callbacks.foldl
      (fun acc e =>
        let r := offWithContext acc.1 e.1 ctx
        (r.1, r.2 || acc.2))
      (st, false)
  | none, none, none =>
    -- lines 342-348: clear everything if any key exists.
    if st.callbacks.length ≠ 0 then ({ st with callbacks := [] }, true)
    else (st, false)

/-- The event object built by `trigger` (lines 441-445): the payload field
holds a reference to the caller's data object, shared by every clone. -/
structure EventRec : Type where
  sender : Nat
  name : String
  payload : Nat
  deriving Repr, DecidableEq

/-- One callback invocation performed by `repeat`: the callback, the stored
context it is called with (absent means a plain call, lines 468-473), the
identity of the fresh shallow clone `und.clone(event)` made for this
invocation (line 467), and that clone's contents (a shallow copy: same
sender, name and payload reference as the event). -/
structure Dispatch : Type where
  callback : FuncId
  context : Option Nat
  copyId : Nat
  record : EventRec
  deriving Repr, DecidableEq

/-- `und.union(a, b)`: concatenation keeping the first occurrence of each
record identity. -/
def unionRecs (a b : List CBRec) : List CBRec :=
  (a ++ b).foldl
    (fun acc r => if acc.any (fun s => s.rid = r.rid) then acc else acc ++ [r])
    []

/-- Function: repeat (lines 459-476): the callbacks for the event's name, then
the "all" callbacks, deduplicated by identity; each is invoked synchronously
in that order with its own fresh shallow clone of the event record.  The
returned list is the sequence of invocations performed. -/
def repeatEv (st : RState) (event : EventRec) : List Dispatch :=
  let eventCallbacks := (getKey st.callbacks event.name).getD []
  let allCallbacks := (getKey st.callbacks "all").getD []
  let callbacks := unionRecs eventCallbacks allCallbacks
  (callbacks.enum).map (fun p =>
    { callback := p.2.callback, context := p.2.context, copyId := p.1,
      record := event })

/-- Function: trigger (lines 438-448): build the event object and dispatch it
via `repeat`. -/
def trigger (st : RState) (sender : Nat) (eventName : String)
    (eventData : Nat) : List Dispatch :=
  repeatEv st { sender := sender, name := eventName, payload := eventData }

/-- An options bundle that only uses material a JavaScript caller can have in
hand: an initializer, when supplied, is an existing function object (its
identity is below the fresh-function counter), and `properties` does not
contain a key literally named "constructor" (which would clobber the
constructor slot assigned on line 36 — no caller of this library does that,
and the claims do not concern it). -/
def OptsOk (w : World) (options : Options) : Prop :=
  options.initializer.all (fun f => f < w.nextFunc) = true ∧
  getKey options.properties "constructor" = none

instance (w : World) (options : Options) : Decidable (OptsOk w options) := by
  unfold OptsOk
  infer_instance

/-- The worlds reachable by composition: the initial world (host `Object`
plus the built-in function identities), extended any number of times with an
existing parent class and a well-formed options bundle.  `Base` itself is
reached by one step (`baseWorld`). -/
inductive Built : World → Prop where
  | init : Built initWorld
  | step (w : World) (p : ClassId) (options : Options) : Built w →
      p < w.classes.length → OptsOk w options → Built (extend w p options).1

/-- Structural invariants of reachable worlds, established by induction on
`Built` and consumed by the claim proofs. -/
structure Inv (w : World) : Prop where
  /-- Class 0 is the host `Object`. -/
  rootObj : descOf w 0 = some objectDesc
  /-- Every prototype object has no duplicate keys. -/
  protoNoDup : ∀ c d, descOf w c = some d → NoDupKeys d.protoOwn
  /-- Every composed class's prototype has a function in its `constructor`
  slot. -/
  stampTotal : ∀ c d, descOf w c = some d → c ≠ 0 →
      ∃ f, getKey d.protoOwn "constructor" = some (Value.fn f)
  /-- Every constructor function in use is below the fresh counter. -/
  stampLt : ∀ c f, stampAt w c = some f → f < w.nextFunc
  /-- The `_class` stamp on a function points at the latest class whose
  constructor slot holds that function (later `extend` calls overwrite the
  stamp), and only at such a class. -/
  funcMap : ∀ f c, getKey w.funcClass f = some c ↔
      (stampAt w c = some f ∧ ∀ c', c < c' → stampAt w c' ≠ some f)

/-!  Concrete worlds used to exercise the theorems.

`worldA`/`worldB`/`worldC`: the spec's three-level example `A → B → C`, where
`A` defines an instance method `method` (function 100) and `B` overrides it
(function 101); `C` adds nothing.  Class identities: A = 2, B = 3, C = 4;
default constructors 7, 8, 9.

`worldS1`/`worldS2`: two sibling classes extended from `Base` that share one
initializer function (function 5 — any existing function serves); classes 2
and 3.

`worldI1`/`worldI2`: a class `A` (class 2, default constructor 7) and a
subclass composed with `options.initializer` set to `A`'s own constructor
function 7, which re-stamps `_class` on it. -/

def worldA : World :=
  (extend baseWorld 1
    { initializer := none, properties := [("method", Value.fn 100)],
      classProperties := [] }).1

def worldB : World :=
  (extend worldA 2
    { initializer := none, properties := [("method", Value.fn 101)],
      classProperties := [] }).1

def worldC : World :=
  (extend worldB 3
    { initializer := none, properties := [], classProperties := [] }).1

def worldS1 : World :=
  (extend baseWorld 1
    { initializer := some 5, properties := [], classProperties := [] }).1

def worldS2 : World :=
  (extend worldS1 1
    { initializer := some 5, properties := [], classProperties := [] }).1

def worldI1 : World :=
  (extend baseWorld 1
    { initializer := none, properties := [], classProperties := [] }).1

def worldI2 : World :=
  (extend worldI1 2
    { initializer := some 7, properties := [], classProperties := [] }).1

/-- A Responder with one "x" listener registered with a context: used against
claim C9 (`off` with only a callback does not remove it). -/
def rStateCtx : RState :=
  (onEv emptyResponder (some "x") (some 10) (some 5)).1

/-- A Responder with context-free registrations of callback 10 under two
names, plus an unrelated callback 11: used to witness the amended C9. -/
def rStateFree : RState :=
  (onEv (onEv (onEv emptyResponder (some "x") (some 10) none).1
    (some "y") (some 10) none).1 (some "y") (some 11) none).1


section AssocLemmas

theorem keysOf_cons {α β : Type} (e : α × β) (l : List (α × β)) :
    keysOf (e :: l) = e.1 :: keysOf l := rfl

theorem noDupKeys_nil {α β : Type} : NoDupKeys ([] : List (α × β)) :=
  List.nodup_nil

theorem noDupKeys_cons_iff {α β : Type} (e : α × β) (l : List (α × β)) :
    NoDupKeys (e :: l) ↔ (∀ e2 ∈ l, e2.1 ≠ e.1) ∧ NoDupKeys l := by
  unfold NoDupKeys
  rw [keysOf_cons, List.nodup_cons]
  constructor
  · rintro ⟨hni, hnd⟩
    refine ⟨?_, hnd⟩
    intro e2 he2 heq
    exact hni (heq ▸ List.mem_map_of_mem Prod.fst he2)
  · rintro ⟨hne, hnd⟩
    refine ⟨?_, hnd⟩
    intro hmem
    obtain ⟨e2, he2, heq⟩ := List.mem_map.mp hmem
    exact hne e2 he2 heq

variable {α β : Type} [DecidableEq α]

theorem getKey_eq_none_iff (l : List (α × β)) (k : α) :
    getKey l k = none ↔ ∀ e ∈ l, e.1 ≠ k := by
  induction l with
  | nil => simp [getKey]
  | cons e rest ih =>
    by_cases h : e.1 = k
    · simp [getKey, h]
    · simp [getKey, h, ih]

theorem getKey_append (l1 l2 : List (α × β)) (k : α) :
    getKey (l1 ++ l2) k =
      match getKey l1 k with
      | some v => some v
      | none => getKey l2 k := by
  induction l1 with
  | nil => simp [getKey]
  | cons e rest ih =>
    by_cases h : e.1 = k <;> simp [getKey, h, ih]

theorem getKey_mem (l : List (α × β)) (k : α) (v : β)
    (h : getKey l k = some v) : (k, v) ∈ l := by
  induction l with
  | nil => simp [getKey] at h
  | cons e rest ih =>
    obtain ⟨a, b⟩ := e
    by_cases he : a = k
    · simp only [getKey, he, if_pos rfl] at h
      · subst he
        cases h
        exact List.mem_cons_self _ _
    · have : ¬ ((a, b).1 = k) := he
      rw [getKey, if_neg this] at h
      exact List.mem_cons_of_mem _ (ih h)

theorem getKey_isSome_of_any (l : List (α × β)) (k : α)
    (h : l.any (fun e => e.1 = k) = true) : ∃ v, getKey l k = some v := by
  cases hv : getKey l k with
  | some v => exact ⟨v, rfl⟩
  | none =>
    exfalso
    rw [getKey_eq_none_iff] at hv
    simp only [List.any_eq_true, decide_eq_true_eq] at h
    obtain ⟨e, he, hk⟩ := h
    exact hv e he hk

theorem any_eq_false_of_getKey_none (l : List (α × β)) (k : α)
    (h : getKey l k = none) : l.any (fun e => e.1 = k) = false := by
  rw [getKey_eq_none_iff] at h
  rw [Bool.eq_false_iff]
  intro hany
  simp only [List.any_eq_true, decide_eq_true_eq] at hany
  obtain ⟨e, he, hk⟩ := hany
  exact h e he hk

theorem map_update_fst (l : List (α × β)) (k : α) (v : β) :
    keysOf (l.map (fun e => if e.1 = k then (e.1, v) else e)) = keysOf l := by
  simp only [keysOf, List.map_map]
  congr 1
  funext e
  by_cases h : e.1 = k <;> simp [h]

theorem getKey_map_update_self (l : List (α × β)) (k : α) (v : β)
    (h : l.any (fun e => e.1 = k) = true) :
    getKey (l.map (fun e => if e.1 = k then (e.1, v) else e)) k = some v := by
  induction l with
  | nil => simp at h
  | cons e rest ih =>
    by_cases he : e.1 = k
    · simp [getKey, he]
    · simp only [List.any_cons, he, decide_False, Bool.false_or] at h
      simp [getKey, he, ih h]

theorem getKey_map_update_ne (l : List (α × β)) (k kq : α) (v : β)
    (h : kq ≠ k) :
    getKey (l.map (fun e => if e.1 = k then (e.1, v) else e)) kq =
      getKey l kq := by
  have hkkq : ¬ (k = kq) := fun hh => h hh.symm
  induction l with
  | nil => simp [getKey]
  | cons e rest ih =>
    by_cases he : e.1 = k
    · simp [getKey, he, hkkq, ih]
    · by_cases he2 : e.1 = kq <;> simp [getKey, he, he2, h, ih]

theorem getKey_setKey_self (l : List (α × β)) (kv : α × β) :
    getKey (setKey l kv) kv.1 = some kv.2 := by
  unfold setKey
  cases ha : l.any (fun e => e.1 = kv.1) with
  | true =>
    rw [if_pos rfl]
    exact getKey_map_update_self l kv.1 kv.2 ha
  | false =>
    rw [if_neg Bool.false_ne_true]
    rw [getKey_append]
    have hnone : getKey l kv.1 = none := by
      rw [getKey_eq_none_iff]
      intro e he hk
      have : l.any (fun e => e.1 = kv.1) = true :=
        List.any_eq_true.mpr ⟨e, he, by simp [hk]⟩
      rw [ha] at this
      exact Bool.false_ne_true this
    rw [hnone]
    simp [getKey]

theorem getKey_setKey_ne (l : List (α × β)) (kv : α × β) (kq : α)
    (h : kq ≠ kv.1) : getKey (setKey l kv) kq = getKey l kq := by
  unfold setKey
  cases ha : l.any (fun e => e.1 = kv.1) with
  | true =>
    rw [if_pos rfl]
    exact getKey_map_update_ne l kv.1 kq kv.2 h
  | false =>
    rw [if_neg Bool.false_ne_true]
    rw [getKey_append]
    cases hg : getKey l kq with
    | some v => rfl
    | none =>
      have hne : ¬ (kv.1 = kq) := fun hh => h hh.symm
      simp [getKey, hne]

theorem setKey_of_getKey_none (l : List (α × β)) (kv : α × β)
    (h : getKey l kv.1 = none) : setKey l kv = l ++ [kv] := by
  unfold setKey
  rw [any_eq_false_of_getKey_none l kv.1 h]
  rw [if_neg Bool.false_ne_true]

theorem keysOf_setKey_of_any (l : List (α × β)) (kv : α × β)
    (h : l.any (fun e => e.1 = kv.1) = true) :
    keysOf (setKey l kv) = keysOf l := by
  unfold setKey
  rw [h, if_pos rfl]
  exact map_update_fst l kv.1 kv.2

theorem noDupKeys_setKey (l : List (α × β)) (kv : α × β)
    (h : NoDupKeys l) : NoDupKeys (setKey l kv) := by
  by_cases ha : l.any (fun e => e.1 = kv.1) = true
  · unfold NoDupKeys
    rw [keysOf_setKey_of_any l kv ha]
    exact h
  · have hnone : getKey l kv.1 = none := by
      rw [getKey_eq_none_iff]
      intro e he hk
      exact ha (List.any_eq_true.mpr ⟨e, he, by simp [hk]⟩)
    rw [setKey_of_getKey_none l kv hnone]
    rw [getKey_eq_none_iff] at hnone
    unfold NoDupKeys
    rw [keysOf, List.map_append, List.nodup_append]
    refine ⟨h, by simp, ?_⟩
    intro a haa
    simp only [List.mem_map] at haa
    obtain ⟨e, he, heq⟩ := haa
    simp only [List.map_cons, List.map_nil, List.mem_singleton]
    intro hcontra
    exact hnone e he (heq.symm ▸ hcontra)

theorem noDupKeys_foldl_setKey (entries : List (α × β))
    (acc : List (α × β)) (h : NoDupKeys acc) :
    NoDupKeys (entries.foldl setKey acc) := by
  induction entries generalizing acc with
  | nil => exact h
  | cons e rest ih => exact ih _ (noDupKeys_setKey _ _ h)

theorem getKey_foldl_setKey_not_mem (entries acc : List (α × β)) (k : α)
    (h : ∀ e ∈ entries, e.1 ≠ k) :
    getKey (entries.foldl setKey acc) k = getKey acc k := by
  induction entries generalizing acc with
  | nil => rfl
  | cons e rest ih =>
    rw [List.foldl_cons, ih _ (fun e2 he2 => h e2 (List.mem_cons_of_mem _ he2))]
    exact getKey_setKey_ne acc e k
      (fun hh => h e (List.mem_cons_self _ _) hh.symm)

theorem getKey_foldl_setKey (entries acc : List (α × β)) (k : α)
    (h : NoDupKeys entries) :
    getKey (entries.foldl setKey acc) k =
      match getKey entries k with
      | some v => some v
      | none => getKey acc k := by
  induction entries generalizing acc with
  | nil => simp [getKey]
  | cons e rest ih =>
    obtain ⟨hne, hnd⟩ := (noDupKeys_cons_iff e rest).mp h
    by_cases he : e.1 = k
    · have hav : ∀ e2 ∈ rest, e2.1 ≠ k := by
        intro e2 he2 hk
        exact hne e2 he2 (hk.trans he.symm)
      rw [List.foldl_cons, getKey_foldl_setKey_not_mem rest _ k hav]
      have hself : getKey (setKey acc e) k = some e.2 := by
        rw [← he]
        exact getKey_setKey_self acc e
      rw [hself]
      simp [getKey, he]
    · rw [List.foldl_cons, ih _ hnd]
      rw [getKey_setKey_ne acc e k (fun hh => he hh.symm)]
      simp [getKey, he]

theorem foldl_setKey_of_disjoint (l : List (α × β)) (acc : List (α × β))
    (hn : NoDupKeys l) (hd : ∀ e ∈ l, getKey acc e.1 = none) :
    l.foldl setKey acc = acc ++ l := by
  induction l generalizing acc with
  | nil => simp
  | cons e rest ih =>
    obtain ⟨hne, hnd⟩ := (noDupKeys_cons_iff e rest).mp hn
    have hd2 : ∀ e2 ∈ rest, getKey (acc ++ [e]) e2.1 = none := by
      intro e2 he2
      rw [getKey_append, hd e2 (List.mem_cons_of_mem _ he2)]
      have hne2 : ¬ (e.1 = e2.1) := fun hh => hne e2 he2 hh.symm
      simp [getKey, hne2]
    rw [List.foldl_cons,
      setKey_of_getKey_none acc e (hd e (List.mem_cons_self _ _)),
      ih (acc ++ [e]) hnd hd2, List.append_assoc, List.singleton_append]

theorem foldl_setKey_nil (l : List (α × β)) (hn : NoDupKeys l) :
    l.foldl setKey [] = l := by
  rw [foldl_setKey_of_disjoint l [] hn (fun e _ => rfl)]
  simp

theorem getKey_of_mem_noDup (l : List (α × β)) (kv : α × β)
    (hn : NoDupKeys l) (hm : kv ∈ l) : getKey l kv.1 = some kv.2 := by
  induction l with
  | nil => simp at hm
  | cons e rest ih =>
    obtain ⟨hne, hnd⟩ := (noDupKeys_cons_iff e rest).mp hn
    rw [List.mem_cons] at hm
    rcases hm with hm | hm
    · subst hm
      simp [getKey]
    · have hne1 : ¬ (e.1 = kv.1) := fun hh => hne kv hm hh.symm
      simp [getKey, hne1, ih hnd hm]

theorem setKey_eq_self (l : List (α × β)) (kv : α × β)
    (hn : NoDupKeys l) (hg : getKey l kv.1 = some kv.2) : setKey l kv = l := by
  unfold setKey
  have hany : l.any (fun e => e.1 = kv.1) = true := by
    refine List.any_eq_true.mpr ⟨kv, getKey_mem l kv.1 kv.2 hg, by simp⟩
  rw [hany, if_pos rfl]
  have hid : ∀ e ∈ l, (if e.1 = kv.1 then (e.1, kv.2) else e) = id e := by
    intro e he
    by_cases hk : e.1 = kv.1
    · obtain ⟨a, b⟩ := e
      have hv : getKey l a = some b := getKey_of_mem_noDup l (a, b) hn he
      have hk2 : a = kv.1 := hk
      rw [hk2, hg] at hv
      have hb : kv.2 = b := Option.some_inj.mp hv
      simp only [hk, if_pos hk, id]
      rw [hb]
    · simp [hk]
  rw [List.map_congr_left hid, List.map_id]

end AssocLemmas


section ShimMergeLemmas

theorem getKey_map_snd {α β γ : Type} [DecidableEq α] (l : List (α × β))
    (g : β → γ) (k : α) :
    getKey (l.map (fun kv => (kv.1, g kv.2))) k = (getKey l k).map g := by
  induction l with
  | nil => simp [getKey]
  | cons e rest ih =>
    by_cases h : e.1 = k <;> simp [getKey, h, ih]

theorem findSome?_option_map {γ δ ε : Type} (l : List γ) (f : γ → Option δ)
    (g : δ → ε) :
    l.findSome? (fun x => (f x).map g) = (l.findSome? f).map g := by
  induction l with
  | nil => simp
  | cons x rest ih =>
    cases h : f x <;> simp [List.findSome?_cons, h, ih]

theorem getKey_createShims (w : World) (c : ClassId) (o : Obj) (k : String) :
    getKey (createShims w c o) k =
      (getKey (protoOwnOf w c) k).map (mkShim o) :=
  getKey_map_snd (protoOwnOf w c) (mkShim o) k

theorem noDupKeys_createShims (w : World) (c : ClassId) (o : Obj)
    (h : NoDupKeys (protoOwnOf w c)) : NoDupKeys (createShims w c o) := by
  unfold NoDupKeys keysOf createShims at *
  rw [List.map_map]
  exact h

theorem getKey_mergeLevels (ls : List (List (String × ShimEntry)))
    (acc : List (String × ShimEntry)) (k : String)
    (h : ∀ l ∈ ls, NoDupKeys l) :
    getKey ((ls.reverse).foldl (fun a l => l.foldl setKey a) acc) k =
      match ls.findSome? (fun l => getKey l k) with
      | some v => some v
      | none => getKey acc k := by
  induction ls generalizing acc with
  | nil => simp
  | cons l rest ih =>
    rw [List.reverse_cons, List.foldl_append]
    simp only [List.foldl_cons, List.foldl_nil]
    rw [getKey_foldl_setKey l _ k (h l (List.mem_cons_self _ _))]
    rw [ih _ (fun l2 hl2 => h l2 (List.mem_cons_of_mem _ hl2))]
    cases hl : getKey l k with
    | some v =>
      simp [List.findSome?_cons, hl]
    | none =>
      cases hr : rest.findSome? (fun l2 => getKey l2 k) <;>
        simp [List.findSome?_cons, hl, hr]

theorem parent_some (w : World) (o : Obj) (a : ClassId) :
    parent w o (some a) =
      match (chainOfObj w o).findIdx?
          (fun lv => protoCtor w lv = protoCtor w a) with
      | none => Except.error
          "The constructor given to parent() is not an ancestor of this object."
      | some i =>
        Except.ok ((((chainOfObj w o).drop i).reverse).foldl
          (fun acc lv => (createShims w lv o).foldl setKey acc) []) := rfl

/-- The merged mapping `parent` returns, characterised pointwise: the entry at
a key is the shim of the value found at the most derived collected level that
owns the key. -/
theorem getKey_parent_ok (w : World) (o : Obj) (a : ClassId)
    (i : Nat) (shims : List (String × ShimEntry))
    (hnd : ∀ lv ∈ chainOfObj w o, NoDupKeys (protoOwnOf w lv))
    (hfind : (chainOfObj w o).findIdx?
      (fun lv => protoCtor w lv = protoCtor w a) = some i)
    (hok : parent w o (some a) = Except.ok shims) (k : String) :
    getKey shims k =
      (((chainOfObj w o).drop i).findSome?
        (fun lv => getKey (protoOwnOf w lv) k)).map (mkShim o) := by
  rw [parent_some, hfind] at hok
  have hshims : shims = (((chainOfObj w o).drop i).reverse).foldl
      (fun acc lv => (createShims w lv o).foldl setKey acc) [] := by
    cases hok
    rfl
  subst hshims
  have hrw : (((chainOfObj w o).drop i).reverse).foldl
      (fun acc lv => (createShims w lv o).foldl setKey acc) [] =
      ((((chainOfObj w o).drop i).map (fun lv => createShims w lv o)).reverse).foldl
        (fun a l => l.foldl setKey a) [] := by
    rw [← List.map_reverse, List.foldl_map]
  rw [hrw]
  rw [getKey_mergeLevels _ [] k ?hnds]
  case hnds =>
    intro l hl
    rw [List.mem_map] at hl
    obtain ⟨lv, hlv, heq⟩ := hl
    subst heq
    exact noDupKeys_createShims w lv o
      (hnd lv (List.mem_of_mem_drop hlv))
  rw [List.findSome?_map]
  have hcomp : (fun l => getKey l k) ∘ (fun lv => createShims w lv o) =
      fun lv => (getKey (protoOwnOf w lv) k).map (mkShim o) := by
    funext lv
    exact getKey_createShims w lv o k
  rw [hcomp, findSome?_option_map]
  cases hfs : ((chainOfObj w o).drop i).findSome?
      (fun lv => getKey (protoOwnOf w lv) k) <;> simp [getKey]

end ShimMergeLemmas

section ChainLemmas

theorem protoChainAux_valid (w : World) (fuel : Nat) :
    ∀ (oc : Option ClassId), ∀ lv ∈ protoChainAux w fuel oc,
      ∃ d, descOf w lv = some d := by
  induction fuel with
  | zero => intro oc lv hlv; simp [protoChainAux] at hlv
  | succ n ih =>
    intro oc lv hlv
    cases oc with
    | none => simp [protoChainAux] at hlv
    | some c =>
      cases hd : descOf w c with
      | none => simp [protoChainAux, hd] at hlv
      | some d =>
        simp only [protoChainAux, hd, List.mem_cons] at hlv
        rcases hlv with h | h
        · exact h ▸ ⟨d, hd⟩
        · exact ih _ lv h

theorem protoChainAux_cons (w : World) (fuel : Nat) (c : ClassId)
    (d : ClassDesc) (hd : descOf w c = some d) :
    protoChainAux w (fuel + 1) (some c) =
      c :: protoChainAux w fuel d.protoParent := by
  simp [protoChainAux, hd]

theorem protoChainAux_self_mem (w : World) (fuel : Nat) (c : ClassId)
    (d : ClassDesc) (hd : descOf w c = some d) (hf : 0 < fuel) :
    c ∈ protoChainAux w fuel (some c) := by
  cases fuel with
  | zero => exact absurd hf (by simp)
  | succ n =>
    rw [protoChainAux_cons w n c d hd]
    exact List.mem_cons_self _ _

theorem descOf_lt_length (w : World) (c : ClassId) (d : ClassDesc)
    (hd : descOf w c = some d) : c < w.classes.length := by
  unfold descOf at hd
  exact (List.getElem?_eq_some.mp hd).1

theorem length_pos_of_descOf (w : World) (c : ClassId) (d : ClassDesc)
    (hd : descOf w c = some d) : 0 < w.classes.length :=
  Nat.lt_of_le_of_lt (Nat.zero_le c) (descOf_lt_length w c d hd)

theorem protoChain_cons (w : World) (c : ClassId) (d : ClassDesc)
    (hd : descOf w c = some d) :
    protoChain w c =
      c :: protoChainAux w (w.classes.length - 1) d.protoParent := by
  unfold protoChain
  have hlen : 0 < w.classes.length := length_pos_of_descOf w c d hd
  obtain ⟨n, hn⟩ : ∃ n, w.classes.length = n + 1 :=
    ⟨w.classes.length - 1, (Nat.succ_pred_eq_of_pos hlen).symm⟩
  rw [hn]
  simp only [Nat.add_sub_cancel]
  exact protoChainAux_cons w n c d hd

theorem protoChain_self_mem (w : World) (c : ClassId) (d : ClassDesc)
    (hd : descOf w c = some d) : c ∈ protoChain w c := by
  rw [protoChain_cons w c d hd]
  exact List.mem_cons_self _ _

end ChainLemmas

section ExtendLemmas

theorem descOf_extend_old (w : World) (p : ClassId) (opts : Options)
    (c : ClassId) (hc : c < w.classes.length) :
    descOf (extend w p opts).1 c = descOf w c := by
  unfold descOf extend
  exact List.getElem?_append_left hc

theorem descOf_extend_new (w : World) (p : ClassId) (opts : Options) :
    descOf (extend w p opts).1 w.classes.length = some (extendDesc w p opts) := by
  unfold descOf extend
  exact List.getElem?_concat_length _ _

theorem descOf_extend_gt (w : World) (p : ClassId) (opts : Options)
    (c : ClassId) (hc : w.classes.length < c) :
    descOf (extend w p opts).1 c = none := by
  unfold descOf extend
  refine List.getElem?_eq_none ?_
  simp only [List.length_append, List.length_cons, List.length_nil]
  omega

theorem extendProtoOwn_noDup (w : World) (opts : Options) :
    NoDupKeys (extendProtoOwn w opts) :=
  noDupKeys_foldl_setKey _ _ (noDupKeys_setKey _ _ noDupKeys_nil)

theorem extendProtoOwn_ctor (w : World) (opts : Options)
    (h : getKey opts.properties "constructor" = none) :
    getKey (extendProtoOwn w opts) "constructor" =
      some (Value.fn (chosenCtor w opts)) := by
  unfold extendProtoOwn
  rw [getKey_foldl_setKey_not_mem]
  · exact getKey_setKey_self [] ("constructor", Value.fn (chosenCtor w opts))
  · rw [getKey_eq_none_iff] at h
    exact h

theorem funcClass_extend (w : World) (p : ClassId) (opts : Options)
    (h : getKey opts.properties "constructor" = none) :
    (extend w p opts).1.funcClass =
      setKey w.funcClass (chosenCtor w opts, w.classes.length) := by
  unfold extend
  rw [extendProtoOwn_ctor w opts h]

theorem nextFunc_extend_le (w : World) (p : ClassId) (opts : Options) :
    w.nextFunc ≤ (extend w p opts).1.nextFunc := by
  unfold extend
  cases opts.initializer <;> simp

theorem chosenCtor_lt_nextFunc (w : World) (p : ClassId) (opts : Options)
    (h : OptsOk w opts) :
    chosenCtor w opts < (extend w p opts).1.nextFunc := by
  unfold chosenCtor extend
  cases hi : opts.initializer with
  | some f =>
    obtain ⟨h1, _⟩ := h
    rw [hi] at h1
    simp only [Option.all_some, decide_eq_true_eq] at h1
    simpa using h1
  | none => simp

theorem stampAt_extend_old (w : World) (p : ClassId) (opts : Options)
    (c : ClassId) (hc : c < w.classes.length) :
    stampAt (extend w p opts).1 c = stampAt w c := by
  unfold stampAt
  rw [descOf_extend_old w p opts c hc]

theorem stampAt_extend_new (w : World) (p : ClassId) (opts : Options)
    (h : OptsOk w opts) :
    stampAt (extend w p opts).1 w.classes.length =
      some (chosenCtor w opts) := by
  unfold stampAt
  rw [descOf_extend_new w p opts]
  unfold stampCtor extendDesc
  simp only
  rw [extendProtoOwn_ctor w opts h.2]

theorem stampAt_extend_gt (w : World) (p : ClassId) (opts : Options)
    (c : ClassId) (hc : w.classes.length < c) :
    stampAt (extend w p opts).1 c = none := by
  unfold stampAt
  rw [descOf_extend_gt w p opts c hc]

theorem stampAt_lt_classes (w : World) (c : ClassId) (f : FuncId)
    (h : stampAt w c = some f) : c < w.classes.length := by
  unfold stampAt at h
  cases hd : descOf w c with
  | none => rw [hd] at h; cases h
  | some d => exact descOf_lt_length w c d hd

theorem stampAt_none_of_ge (w : World) (c : ClassId)
    (h : w.classes.length ≤ c) : stampAt w c = none := by
  unfold stampAt descOf
  rw [List.getElem?_eq_none h]

end ExtendLemmas

section InvLemmas

theorem inv_init : Inv initWorld := by
  have hdesc : ∀ c d, descOf initWorld c = some d → c = 0 ∧ d = objectDesc := by
    intro c d hd
    unfold descOf initWorld at hd
    cases c with
    | zero =>
      simp at hd
      exact ⟨rfl, hd.symm⟩
    | succ n => simp at hd
  constructor
  · rfl
  · intro c d hd
    obtain ⟨_, hd2⟩ := hdesc c d hd
    subst hd2
    exact noDupKeys_nil
  · intro c d hd hc
    exact absurd (hdesc c d hd).1 hc
  · intro c f h
    unfold stampAt at h
    cases hg : descOf initWorld c with
    | none => rw [hg] at h; cases h
    | some d =>
      rw [hg] at h
      obtain ⟨_, hd2⟩ := hdesc c d hg
      subst hd2
      unfold stampCtor objectDesc at h
      simp [getKey] at h
  · intro f c
    constructor
    · intro h
      simp [initWorld, getKey] at h
    · rintro ⟨h1, _⟩
      exfalso
      unfold stampAt at h1
      cases hg : descOf initWorld c with
      | none => rw [hg] at h1; cases h1
      | some d =>
        rw [hg] at h1
        obtain ⟨_, hd2⟩ := hdesc c d hg
        subst hd2
        unfold stampCtor objectDesc at h1
        simp [getKey] at h1

theorem inv_extend (w : World) (p : ClassId) (opts : Options) (hI : Inv w)
    (hp : p < w.classes.length) (hok : OptsOk w opts) :
    Inv (extend w p opts).1 := by
  have hfc := funcClass_extend w p opts hok.2
  constructor
  · rw [descOf_extend_old w p opts 0 (Nat.lt_of_le_of_lt (Nat.zero_le p) hp)]
    exact hI.rootObj
  · intro c d hd
    rcases Nat.lt_trichotomy c w.classes.length with h | h | h
    · rw [descOf_extend_old w p opts c h] at hd
      exact hI.protoNoDup c d hd
    · subst h
      rw [descOf_extend_new w p opts] at hd
      cases hd
      exact extendProtoOwn_noDup w opts
    · rw [descOf_extend_gt w p opts c h] at hd
      cases hd
  · intro c d hd hc
    rcases Nat.lt_trichotomy c w.classes.length with h | h | h
    · rw [descOf_extend_old w p opts c h] at hd
      exact hI.stampTotal c d hd hc
    · subst h
      rw [descOf_extend_new w p opts] at hd
      cases hd
      exact ⟨chosenCtor w opts, extendProtoOwn_ctor w opts hok.2⟩
    · rw [descOf_extend_gt w p opts c h] at hd
      cases hd
  · intro c f h
    rcases Nat.lt_trichotomy c w.classes.length with h2 | h2 | h2
    · rw [stampAt_extend_old w p opts c h2] at h
      exact Nat.lt_of_lt_of_le (hI.stampLt c f h) (nextFunc_extend_le w p opts)
    · subst h2
      rw [stampAt_extend_new w p opts hok] at h
      cases h
      exact chosenCtor_lt_nextFunc w p opts hok
    · rw [stampAt_extend_gt w p opts c h2] at h
      cases h
  · intro f c
    rw [hfc]
    by_cases hf : f = chosenCtor w opts
    · subst hf
      rw [show getKey (setKey w.funcClass (chosenCtor w opts, w.classes.length))
          (chosenCtor w opts) = some w.classes.length from
        getKey_setKey_self w.funcClass (chosenCtor w opts, w.classes.length)]
      constructor
      · intro h
        have hc : c = w.classes.length := (Option.some_inj.mp h).symm
        subst hc
        refine ⟨stampAt_extend_new w p opts hok, ?_⟩
        intro c2 hc2
        rw [stampAt_extend_gt w p opts c2 hc2]
        simp
      · rintro ⟨h1, h2⟩
        rcases Nat.lt_trichotomy c w.classes.length with h3 | h3 | h3
        · exfalso
          exact h2 w.classes.length h3 (stampAt_extend_new w p opts hok)
        · rw [h3]
        · rw [stampAt_extend_gt w p opts c h3] at h1
          cases h1
    · rw [getKey_setKey_ne w.funcClass _ f hf]
      rw [hI.funcMap f c]
      constructor
      · rintro ⟨h1, h2⟩
        have hcn : c < w.classes.length := stampAt_lt_classes w c f h1
        refine ⟨by rw [stampAt_extend_old w p opts c hcn]; exact h1, ?_⟩
        intro c2 hc2
        rcases Nat.lt_trichotomy c2 w.classes.length with h3 | h3 | h3
        · rw [stampAt_extend_old w p opts c2 h3]
          exact h2 c2 hc2
        · subst h3
          rw [stampAt_extend_new w p opts hok]
          intro hh
          exact hf (Option.some_inj.mp hh).symm
        · rw [stampAt_extend_gt w p opts c2 h3]
          simp
      · rintro ⟨h1, h2⟩
        rcases Nat.lt_trichotomy c w.classes.length with h3 | h3 | h3
        · rw [stampAt_extend_old w p opts c h3] at h1
          refine ⟨h1, ?_⟩
          intro c2 hc2
          by_cases h4 : c2 < w.classes.length
          · have h5 := h2 c2 hc2
            rw [stampAt_extend_old w p opts c2 h4] at h5
            exact h5
          · rw [stampAt_none_of_ge w c2 (Nat.le_of_not_lt h4)]
            simp
        · subst h3
          rw [stampAt_extend_new w p opts hok] at h1
          exact absurd (Option.some_inj.mp h1).symm hf
        · rw [stampAt_extend_gt w p opts c h3] at h1
          cases h1

theorem built_inv (w : World) (h : Built w) : Inv w := by
  induction h with
  | init => exact inv_init
  | step w p opts _ hp hok ih => exact inv_extend w p opts ih hp hok

end InvLemmas


section InstanceLemmas

theorem constructorFunc_ownProps (w : World) (c : ClassId)
    (hnd : NoDupKeys (protoOwnOf w c)) :
    (constructorFunc w c).ownProps = protoOwnOf w c :=
  foldl_setKey_nil _ hnd

theorem getMember_constructorFunc (w : World) (c : ClassId) (d : ClassDesc)
    (hd : descOf w c = some d) (hnd : NoDupKeys (protoOwnOf w c)) (k : String) :
    getMember w (constructorFunc w c) k = chainLookup w c k := by
  unfold getMember
  rw [show (constructorFunc w c).ownProps = protoOwnOf w c from
    constructorFunc_ownProps w c hnd]
  have hproto : (constructorFunc w c).protoCls = some c := rfl
  rw [hproto]
  cases hk : getKey (protoOwnOf w c) k with
  | some v =>
    unfold chainLookup
    rw [protoChain_cons w c d hd]
    rw [List.findSome?_cons]
    rw [hk]
  | none => rfl

end InstanceLemmas

section ResponderLemmas

theorem offWithCallback_nextRid (st : RState) (n : String) (c : FuncId)
    (ctx : Option Nat) : (offWithCallback st n c ctx).1.nextRid = st.nextRid := by
  unfold offWithCallback
  cases hg : getKey st.callbacks n with
  | none => rfl
  | some l =>
    simp only
    by_cases h :
        (l.filter (fun r => r.callback = c ∧ r.context = ctx)).length ≠ 0
    · rw [if_pos h]
    · rw [if_neg h]

theorem difference_filter (l : List CBRec) (p : CBRec → Prop)
    [DecidablePred p] :
    difference l (l.filter (fun r => p r)) = l.filter (fun r => ¬ p r) := by
  unfold difference
  refine List.filter_congr ?_
  intro r hr
  by_cases hp : p r
  · have hmem : r ∈ l.filter (fun r => p r) :=
      List.mem_filter.mpr ⟨hr, by simpa using hp⟩
    have hcont : (l.filter (fun r => p r)).contains r = true :=
      List.elem_iff.mpr hmem
    rw [hcont]
    simp [hp]
  · have hmem : r ∉ l.filter (fun r => p r) := by
      intro hmem
      exact hp (by simpa using (List.mem_filter.mp hmem).2)
    have hcont : (l.filter (fun r => p r)).contains r = false := by
      rw [Bool.eq_false_iff]
      intro hc
      exact hmem (List.elem_iff.mp hc)
    rw [hcont]
    simp [hp]

theorem offWithCallback_char (st : RState) (n : String) (c : FuncId)
    (hnd : NoDupKeys st.callbacks) :
    offWithCallback st n c none =
      match getKey st.callbacks n with
      | none => (st, false)
      | some l =>
        ({ st with
            callbacks :=
              setKey st.callbacks
                (n, l.filter (fun r => ¬ (r.callback = c ∧ r.context = none))) },
         l.any (fun r => r.callback = c ∧ r.context = none)) := by
  unfold offWithCallback
  cases hg : getKey st.callbacks n with
  | none => rfl
  | some l =>
    simp only
    by_cases hlen : (l.filter (fun r => r.callback = c ∧ r.context = none)).length ≠ 0
    · rw [if_pos hlen]
      have hany : l.any (fun r => r.callback = c ∧ r.context = none) = true := by
        rw [List.any_eq_true]
        have : l.filter (fun r => r.callback = c ∧ r.context = none) ≠ [] := by
          intro hh
          rw [hh] at hlen
          exact hlen rfl
        obtain ⟨r, hr⟩ := List.exists_mem_of_ne_nil _ this
        obtain ⟨hrl, hrp⟩ := List.mem_filter.mp hr
        exact ⟨r, hrl, hrp⟩
      rw [hany, difference_filter]
    · rw [if_neg hlen]
      push_neg at hlen
      have hfilt : l.filter (fun r => r.callback = c ∧ r.context = none) = [] :=
        List.length_eq_zero.mp hlen
      have hany : l.any (fun r => r.callback = c ∧ r.context = none) = false := by
        rw [List.any_eq_false]
        intro r hr hp
        have : r ∈ l.filter (fun r => r.callback = c ∧ r.context = none) :=
          List.mem_filter.mpr ⟨hr, hp⟩
        rw [hfilt] at this
        exact absurd this (List.not_mem_nil r)
      rw [hany]
      have hkeep : l.filter (fun r => ¬ (r.callback = c ∧ r.context = none)) = l := by
        refine List.filter_eq_self.mpr ?_
        intro r hr
        simp only [decide_eq_true_eq]
        intro hp
        have : r ∈ l.filter (fun r => r.callback = c ∧ r.context = none) :=
          List.mem_filter.mpr ⟨hr, by simpa using hp⟩
        rw [hfilt] at this
        exact absurd this (List.not_mem_nil r)
      rw [hkeep, setKey_eq_self st.callbacks (n, l) hnd hg]

theorem offAll_fold (c : FuncId) (es : List (String × List CBRec)) :
    ∀ (st : RState) (b : Bool), NoDupKeys st.callbacks →
    NoDupKeys es →
    (∀ e ∈ es, getKey st.callbacks e.1 = some e.2) →
    es.foldl (fun acc e =>
        let r := offWithCallback acc.1 e.1 c none
        (r.1, r.2 || acc.2)) (st, b) =
      ({ st with
          callbacks :=
            es.foldl
              (fun cbs e =>
                setKey cbs (e.1, e.2.filter
                  (fun r => ¬ (r.callback = c ∧ r.context = none))))
              st.callbacks },
       b || es.any (fun e =>
          e.2.any (fun r => r.callback = c ∧ r.context = none))) := by
  induction es with
  | nil =>
    intro st b hnd _ _
    simp
  | cons e rest ih =>
    intro st b hnd hkeys hval
    obtain ⟨hne, hkrest⟩ := (noDupKeys_cons_iff e rest).mp hkeys
    rw [List.foldl_cons]
    simp only
    rw [offWithCallback_char st e.1 c hnd]
    rw [hval e (List.mem_cons_self _ _)]
    simp only
    set filt := fun (l : List CBRec) =>
      l.filter (fun r => ¬ (r.callback = c ∧ r.context = none)) with hfilt
    set st1 : RState :=
      { st with callbacks := setKey st.callbacks (e.1, filt e.2) } with hst1
    have hnd1 : NoDupKeys st1.callbacks := noDupKeys_setKey _ _ hnd
    have hval1 : ∀ e2 ∈ rest, getKey st1.callbacks e2.1 = some e2.2 := by
      intro e2 he2
      rw [hst1]
      simp only
      rw [getKey_setKey_ne st.callbacks (e.1, filt e.2) e2.1 (hne e2 he2)]
      exact hval e2 (List.mem_cons_of_mem _ he2)
    rw [ih st1 _ hnd1 hkrest hval1]
    rw [List.foldl_cons, List.any_cons]
    simp only [Prod.mk.injEq]
    refine ⟨trivial, ?_⟩
    simp [Bool.or_comm, Bool.or_left_comm, Bool.or_assoc]

theorem getKey_fold_setKey_filter (es : List (String × List CBRec))
    (cbs0 : List (String × List CBRec)) (n : String)
    (g : List CBRec → List CBRec) (hkeys : NoDupKeys es) :
    getKey (es.foldl (fun cbs e => setKey cbs (e.1, g e.2)) cbs0) n =
      match getKey es n with
      | some l => some (g l)
      | none => getKey cbs0 n := by
  have hrw : es.foldl (fun cbs e => setKey cbs (e.1, g e.2)) cbs0 =
      (es.map (fun e => (e.1, g e.2))).foldl setKey cbs0 := by
    rw [List.foldl_map]
  rw [hrw]
  rw [getKey_foldl_setKey _ cbs0 n ?hmk]
  case hmk =>
    unfold NoDupKeys keysOf at hkeys ⊢
    rw [List.map_map]
    exact hkeys
  rw [getKey_map_snd es g n]
  cases hg : getKey es n <;> rfl

/-- `off(name := none, callback := some c)`: per-key characterisation of the
resulting registry, plus the returned flag. -/
theorem off_callback_only (st : RState) (c : FuncId) (ctx : Option Nat)
    (hnd : NoDupKeys st.callbacks) :
    (∀ n, getKey (off st none (some c) ctx).1.callbacks n =
      (getKey st.callbacks n).map
        (fun l => l.filter (fun r => ¬ (r.callback = c ∧ r.context = none)))) ∧
    (off st none (some c) ctx).2 =
      st.callbacks.any (fun e =>
        e.2.any (fun r => r.callback = c ∧ r.context = none)) ∧
    (off st none (some c) ctx).1.nextRid = st.nextRid := by
  have hval : ∀ e ∈ st.callbacks, getKey st.callbacks e.1 = some e.2 :=
    fun e he => getKey_of_mem_noDup st.callbacks e hnd he
  have hoff : off st none (some c) ctx = st.callbacks.foldl (fun acc e =>
      let r := offWithCallback acc.1 e.1 c none
      (r.1, r.2 || acc.2)) (st, false) := rfl
  rw [hoff, offAll_fold c st.callbacks st false hnd hnd hval]
  refine ⟨?_, by simp, rfl⟩
  intro n
  simp only
  rw [getKey_fold_setKey_filter st.callbacks st.callbacks n _ hnd]
  cases hg : getKey st.callbacks n <;> simp [hg]

end ResponderLemmas


section MoreHelpers

theorem protoChainAux_none (w : World) (fuel : Nat) :
    protoChainAux w fuel none = [] := by
  cases fuel <;> rfl

theorem protoOwnOf_eq (w : World) (c : ClassId) (d : ClassDesc)
    (hd : descOf w c = some d) : protoOwnOf w c = d.protoOwn := by
  unfold protoOwnOf
  rw [hd]

theorem classPropsOf_eq (w : World) (c : ClassId) (d : ClassDesc)
    (hd : descOf w c = some d) : classPropsOf w c = d.classProps := by
  unfold classPropsOf
  rw [hd]

theorem chainOfObj_constructorFunc (w : World) (c : ClassId) :
    chainOfObj w (constructorFunc w c) = protoChain w c := rfl

theorem inheritsFrom_some (w : World) (self : ClassId) (a : ClassId) :
    inheritsFrom w self (some a) =
      (protoChain w self).any (fun lv => protoCtor w lv = protoCtor w a) := rfl

theorem built_chain_noDup (w : World) (hB : Built w) (o : Obj) :
    ∀ lv ∈ chainOfObj w o, NoDupKeys (protoOwnOf w lv) := by
  intro lv hlv
  have hI := built_inv w hB
  unfold chainOfObj at hlv
  cases hpc : o.protoCls with
  | none =>
    rw [hpc] at hlv
    simp at hlv
  | some c =>
    rw [hpc] at hlv
    have hlv2 : lv ∈ protoChain w c := hlv
    obtain ⟨d, hd⟩ := protoChainAux_valid w _ _ lv hlv2
    rw [protoOwnOf_eq w lv d hd]
    exact hI.protoNoDup lv d hd

theorem built_baseWorld : Built baseWorld :=
  Built.step initWorld 0 baseOptions Built.init (by decide) (by decide)

theorem built_worldA : Built worldA :=
  Built.step baseWorld 1
    { initializer := none, properties := [("method", Value.fn 100)],
      classProperties := [] } built_baseWorld (by decide) (by decide)

theorem built_worldB : Built worldB :=
  Built.step worldA 2
    { initializer := none, properties := [("method", Value.fn 101)],
      classProperties := [] } built_worldA (by decide) (by decide)

theorem built_worldC : Built worldC :=
  Built.step worldB 3
    { initializer := none, properties := [], classProperties := [] }
    built_worldB (by decide) (by decide)

theorem built_worldS1 : Built worldS1 :=
  Built.step baseWorld 1
    { initializer := some 5, properties := [], classProperties := [] }
    built_baseWorld (by decide) (by decide)

theorem built_worldS2 : Built worldS2 :=
  Built.step worldS1 1
    { initializer := some 5, properties := [], classProperties := [] }
    built_worldS1 (by decide) (by decide)

theorem built_worldI1 : Built worldI1 :=
  Built.step baseWorld 1
    { initializer := none, properties := [], classProperties := [] }
    built_baseWorld (by decide) (by decide)

theorem built_worldI2 : Built worldI2 :=
  Built.step worldI1 2
    { initializer := some 7, properties := [], classProperties := [] }
    built_worldI1 (by decide) (by decide)

end MoreHelpers

section ClaimsA

/-- C3: `parent(cls)` raises the ancestor-not-found error if and only if the
argument is a class whose constructor does not occur among the constructors
of the instance's prototype chain; an absent or prototype-less argument
(modelled as `none`) yields the empty mapping without raising; and an
argument whose constructor does occur in the chain — in particular the
instance's own class or a strict ancestor — yields the shim mapping without
raising. -/
theorem C3_parent_error_iff (w : World) (c : ClassId) (a : ClassId) :
    parent w (constructorFunc w c) none = Except.ok [] ∧
    ((∃ msg, parent w (constructorFunc w c) (some a) = Except.error msg) ↔
      protoCtor w a ∉ (protoChain w c).map (protoCtor w)) ∧
    (a ∈ protoChain w c →
      ∃ shims, parent w (constructorFunc w c) (some a) = Except.ok shims) := by
  refine ⟨rfl, ?_, ?_⟩
  · rw [parent_some, chainOfObj_constructorFunc]
    cases hf : (protoChain w c).findIdx?
        (fun lv => protoCtor w lv = protoCtor w a) with
    | none =>
      simp only
      constructor
      · intro _
        rw [List.findIdx?_eq_none_iff] at hf
        intro hmem
        rw [List.mem_map] at hmem
        obtain ⟨lv, hlv, heq⟩ := hmem
        have hfalse := hf lv hlv
        rw [decide_eq_false_iff_not] at hfalse
        exact hfalse heq
      · intro _
        exact ⟨_, rfl⟩
    | some i =>
      simp only
      constructor
      · rintro ⟨msg, hmsg⟩
        cases hmsg
      · intro hnotin
        exfalso
        have hnone : (protoChain w c).findIdx?
            (fun lv => protoCtor w lv = protoCtor w a) = none := by
          rw [List.findIdx?_eq_none_iff]
          intro lv hlv
          rw [decide_eq_false_iff_not]
          intro heq
          exact hnotin (List.mem_map.mpr ⟨lv, hlv, heq⟩)
        rw [hf] at hnone
        cases hnone
  · intro hmem
    rw [parent_some, chainOfObj_constructorFunc]
    cases hf : (protoChain w c).findIdx?
        (fun lv => protoCtor w lv = protoCtor w a) with
    | none =>
      exfalso
      rw [List.findIdx?_eq_none_iff] at hf
      have hfalse := hf a hmem
      rw [decide_eq_false_iff_not] at hfalse
      exact hfalse rfl
    | some i =>
      exact ⟨_, rfl⟩

/-- C10: `inheritsFrom` is reflexive — every class with a descriptor (in
particular every class the composer produces, including `Base`) inherits
from itself, because the walk starts at the receiver's own prototype and the
first constructor comparison already matches. -/
theorem C10_inheritsFrom_refl (w : World) (c : ClassId)
    (hc : c < w.classes.length) : inheritsFrom w c (some c) = true := by
  have hd : descOf w c = some w.classes[c] := List.getElem?_eq_getElem hc
  rw [inheritsFrom_some, List.any_eq_true]
  exact ⟨c, protoChain_self_mem w c _ hd, by simp⟩

theorem C10_witness : inheritsFrom baseWorld 1 (some 1) = true :=
  C10_inheritsFrom_refl baseWorld 1 (by decide)

/-- C6 as stated is false on the code: two sibling classes extended from
`Base` with the same initializer function (classes 2 and 3 of `worldS2`)
make `inheritsFrom` answer true for a class that is not in the receiver's
ancestry chain, because the walk compares constructor identities and the
siblings share one. -/
theorem C6_counterexample :
    inheritsFrom worldS2 2 (some 3) = true ∧ 3 ∉ protoChain worldS2 2 := by
  decide

/-- C6 amended: after `Child = Parent.extend(options)`, `Child.superclass()`
is `Parent` and `Child.inheritsFrom(Parent)` is true; `inheritsFrom` answers
false for every class whose constructor does not occur among the chain's
level constructors (which is every class outside the chain exactly when
constructor functions are not shared); and an absent or malformed argument
yields false rather than an error. -/
theorem C6_amended (w : World) (p : ClassId) (hp : p < w.classes.length)
    (opts : Options) :
    superclass (extend w p opts).1 (extend w p opts).2 =
      some (Value.classV p) ∧
    inheritsFrom (extend w p opts).1 (extend w p opts).2 (some p) = true ∧
    (∀ x, protoCtor (extend w p opts).1 x ∉
        (protoChain (extend w p opts).1 (extend w p opts).2).map
          (protoCtor (extend w p opts).1) →
      inheritsFrom (extend w p opts).1 (extend w p opts).2 (some x) = false) ∧
    inheritsFrom (extend w p opts).1 (extend w p opts).2 none = false := by
  set w2 := (extend w p opts).1 with hw2
  have hnew : (extend w p opts).2 = w.classes.length := rfl
  have hdn : descOf w2 w.classes.length = some (extendDesc w p opts) :=
    descOf_extend_new w p opts
  have hdp : descOf w2 p = descOf w p := descOf_extend_old w p opts p hp
  have hdp2 : descOf w p = some w.classes[p] := List.getElem?_eq_getElem hp
  refine ⟨?_, ?_, ?_, rfl⟩
  · unfold superclass
    rw [hnew, classPropsOf_eq w2 _ _ hdn]
    unfold extendDesc extendClassProps
    simp only
    exact getKey_setKey_self _ _
  · rw [hnew, inheritsFrom_some, List.any_eq_true]
    refine ⟨p, ?_, by simp⟩
    rw [protoChain_cons w2 _ _ hdn]
    refine List.mem_cons_of_mem _ ?_
    have hparent : (extendDesc w p opts).protoParent = some p := rfl
    rw [hparent]
    have hlen2 : w2.classes.length = w.classes.length + 1 := by
      rw [hw2]
      unfold extend
      simp
    have hlen : w2.classes.length - 1 = w.classes.length := by omega
    rw [hlen]
    exact protoChainAux_self_mem w2 _ p _ (hdp.trans hdp2)
      (Nat.lt_of_le_of_lt (Nat.zero_le p) hp)
  · intro x hx
    rw [hnew] at hx ⊢
    rw [inheritsFrom_some, List.any_eq_false]
    intro lv hlv
    simp only [decide_eq_true_eq]
    intro heq
    exact hx (List.mem_map.mpr ⟨lv, hlv, heq⟩)

theorem C6_witness :
    superclass
        (extend baseWorld 1
          { initializer := none, properties := [], classProperties := [] }).1
        (extend baseWorld 1
          { initializer := none, properties := [], classProperties := [] }).2 =
      some (Value.classV 1) :=
  (C6_amended baseWorld 1 (by decide)
    { initializer := none, properties := [], classProperties := [] }).1

/-- C8: with one "x" listener and one "all" listener, `trigger("x", data)`
dispatches the "x" listener first and the "all" listener second, each with
its stored context; each invocation receives its own clone of the event
record (distinct `copyId` 0 and 1), and the clones are shallow: both carry
the same sender, name and the same payload reference. -/
theorem C8_trigger_order (cb1 cb2 : FuncId) (ctx1 ctx2 : Option Nat)
    (sender payload : Nat) :
    trigger ((onEv ((onEv emptyResponder (some "x") (some cb1) ctx1).1)
        (some "all") (some cb2) ctx2).1) sender "x" payload =
      [{ callback := cb1, context := ctx1, copyId := 0,
         record := { sender := sender, name := "x", payload := payload } },
       { callback := cb2, context := ctx2, copyId := 1,
         record := { sender := sender, name := "x", payload := payload } }] := by
  rfl

/-- C9 as stated is false on the code: a registration stored with a context
is not removed by `off` called with only a callback — the iterated recursive
call drops the context argument and then requires the stored context to be
`undefined`.  Here the registry holds exactly one registration of callback
10 (under "x", with context 5); the call removes nothing and returns
false. -/
theorem C9_counterexample :
    (off rStateCtx none (some 10) none).1 = rStateCtx ∧
    (off rStateCtx none (some 10) none).2 = false ∧
    rStateCtx.callbacks =
      [("x", [{ rid := 0, callback := 10, context := some 5 }])] := by
  decide

/-- C9 amended: `off` with no event name but with a callback removes, from
every event name, exactly the registrations of that callback that were
stored *without* a context (any context argument passed to `off` itself is
ignored by this branch), and returns true iff at least one such registration
existed. -/
theorem C9_amended (st : RState) (c : FuncId) (ctx : Option Nat)
    (hnd : NoDupKeys st.callbacks) :
    (∀ n, getKey (off st none (some c) ctx).1.callbacks n =
      (getKey st.callbacks n).map
        (fun l => l.filter (fun r => ¬ (r.callback = c ∧ r.context = none)))) ∧
    (off st none (some c) ctx).2 =
      st.callbacks.any (fun e =>
        e.2.any (fun r => r.callback = c ∧ r.context = none)) ∧
    (off st none (some c) ctx).1.nextRid = st.nextRid :=
  off_callback_only st c ctx hnd

theorem C9_witness :
    getKey (off rStateFree none (some 10) none).1.callbacks "y" =
      (getKey rStateFree.callbacks "y").map
        (fun l => l.filter
          (fun r => ¬ (r.callback = 10 ∧ r.context = none))) :=
  (C9_amended rStateFree 10 none (by decide)).1 "y"

end ClaimsA


section ClaimsB

theorem classes_length_extend (w : World) (p : ClassId) (opts : Options) :
    (extend w p opts).1.classes.length = w.classes.length + 1 := by
  unfold extend
  simp

theorem chosenCtor_eq_of_some (w : World) (opts : Options) (f : FuncId)
    (h : opts.initializer = some f) : chosenCtor w opts = f := by
  unfold chosenCtor
  rw [h]

theorem chosenCtor_eq_of_none (w : World) (opts : Options)
    (h : opts.initializer = none) : chosenCtor w opts = w.nextFunc := by
  unfold chosenCtor
  rw [h]

theorem stampCtor_inv (d : ClassDesc) (f : FuncId) (h : stampCtor d = some f) :
    getKey d.protoOwn "constructor" = some (Value.fn f) := by
  unfold stampCtor at h
  cases hg : getKey d.protoOwn "constructor" with
  | none => rw [hg] at h; cases h
  | some v =>
    rw [hg] at h
    cases v with
    | fn g => cases h; rfl
    | classV cc => cases h
    | str s => cases h
    | num n => cases h

theorem stampAt_inv (w : World) (c : ClassId) (f : FuncId)
    (h : stampAt w c = some f) :
    ∃ d, descOf w c = some d ∧
      getKey d.protoOwn "constructor" = some (Value.fn f) := by
  unfold stampAt at h
  cases hd : descOf w c with
  | none => rw [hd] at h; cases h
  | some d =>
    rw [hd] at h
    exact ⟨d, rfl, stampCtor_inv d f h⟩

/-- C1 as stated is false on the code: in the chain `A → B → C` of `worldC`
(classes 2, 3, 4), with `B.method` (function 101) overriding `A.method`
(function 100), `parent(A)` called on an instance of `C` maps "method" to a
shim of `A`'s function 100 — not `B`'s 101 as the claim requires — because
the walk only starts collecting at `A`'s level, skipping `B` entirely. -/
theorem C1_counterexample :
    (parent worldC (constructorFunc worldC 4) (some 2)).isOk = true ∧
    getKey (shimsOrEmpty (parent worldC (constructorFunc worldC 4) (some 2)))
        "method" =
      some (ShimEntry.wrapped (Value.fn 100) (constructorFunc worldC 4)) ∧
    getKey (protoOwnOf worldC 3) "method" = some (Value.fn 101) ∧
    (3 : ClassId) ∈ protoChain worldC 4 ∧
    Value.fn 100 ≠ Value.fn 101 := by
  decide

/-- C1 amended: the levels `parent(cls)` collects run from the first (most
derived) chain level whose constructor matches the requested ancestor's
constructor down to the *root* — not from the instance's own class down to
the ancestor — and they are merged so that a more derived collected level
wins.  Hence the returned mapping is, pointwise, the requested ancestor's own
resolved view of its members: `parent(A).method` is `A`'s version even when a
class between the instance and `A` overrides it. -/
theorem C1_amended (w : World) (hB : Built w) (o : Obj) (a : ClassId) (i : Nat)
    (shims : List (String × ShimEntry))
    (hfind : (chainOfObj w o).findIdx?
        (fun lv => protoCtor w lv = protoCtor w a) = some i)
    (hok : parent w o (some a) = Except.ok shims) :
    ∀ k, getKey shims k =
      (((chainOfObj w o).drop i).findSome?
        (fun lv => getKey (protoOwnOf w lv) k)).map (mkShim o) :=
  fun k => getKey_parent_ok w o a i shims (built_chain_noDup w hB o) hfind hok k

theorem C1_witness :
    getKey (shimsOrEmpty (parent worldC (constructorFunc worldC 4) (some 2)))
        "method" =
      (((chainOfObj worldC (constructorFunc worldC 4)).drop 2).findSome?
        (fun lv => getKey (protoOwnOf worldC lv) "method")).map
        (mkShim (constructorFunc worldC 4)) :=
  C1_amended worldC built_worldC (constructorFunc worldC 4) 2 2
    (shimsOrEmpty (parent worldC (constructorFunc worldC 4) (some 2)))
    (by decide) (by rfl) "method"

/-- C2 as stated is false on the code: the constructor copies only
`Object.keys(prototype)` — the own members of the class's immediate
prototype — onto the instance, so a member defined only on an ancestor
(here "method", present in class 4's resolved template through class 3) is
not an own member of the new instance. -/
theorem C2_counterexample :
    getKey (constructorFunc worldC 4).ownProps "method" = none ∧
    chainLookup worldC 4 "method" = some (Value.fn 101) := by
  decide

/-- C2 amended: invoking a class copies exactly the own members of its
immediate prototype (the `constructor` slot plus the class's own
`properties`) onto the fresh instance before the initializer body runs;
members of ancestor levels stay reachable through the prototype chain, and
member lookup on the fresh instance still yields the fully resolved template
value (most derived level wins). -/
theorem C2_amended (w : World) (hB : Built w) (c : ClassId)
    (hc : c < w.classes.length) :
    (constructorFunc w c).ownProps = protoOwnOf w c ∧
    (∀ k, getMember w (constructorFunc w c) k = chainLookup w c k) := by
  have hI := built_inv w hB
  have hd : descOf w c = some w.classes[c] := List.getElem?_eq_getElem hc
  have hnd : NoDupKeys (protoOwnOf w c) := by
    rw [protoOwnOf_eq w c _ hd]
    exact hI.protoNoDup c _ hd
  exact ⟨constructorFunc_ownProps w c hnd,
    fun k => getMember_constructorFunc w c _ hd hnd k⟩

theorem C2_witness :
    (constructorFunc worldC 3).ownProps = protoOwnOf worldC 3 :=
  (C2_amended worldC built_worldC 3 (by decide)).1

/-- C4 as stated is false on the code: two classes that share one
initializer function overwrite each other's `_class` stamp, so `cls()` on an
instance of the earlier class (class 2 of `worldS2`) reports the later
sibling (class 3), not the class that constructed the instance. -/
theorem C4_counterexample :
    cls worldS2 (constructorFunc worldS2 2) = some 3 ∧
    cls worldS2 (constructorFunc worldS2 2) ≠ some 2 := by
  decide

/-- C4 amended: `i.cls() === C` holds for every instance constructed by
invoking `C`, provided no other class in the world has `C`'s constructor
function in its prototype's constructor slot — in particular always when
every composition either omits the initializer (the default constructor is a
fresh closure) or supplies a function not reused by another class.  When the
constructor function is shared, `cls()` reports the class stamped last. -/
theorem C4_amended (w : World) (hB : Built w) (c : ClassId) (f : FuncId)
    (hf : stampAt w c = some f)
    (huniq : ∀ c2, c2 < w.classes.length → c2 ≠ c → stampAt w c2 ≠ some f) :
    cls w (constructorFunc w c) = some c := by
  have hI := built_inv w hB
  obtain ⟨d, hdd, hg⟩ := stampAt_inv w c f hf
  have hown : (constructorFunc w c).ownProps = protoOwnOf w c :=
    constructorFunc_ownProps w c
      (by rw [protoOwnOf_eq w c d hdd]; exact hI.protoNoDup c d hdd)
  have hgm : getMember w (constructorFunc w c) "constructor" =
      some (Value.fn f) := by
    unfold getMember
    rw [hown, protoOwnOf_eq w c d hdd, hg]
  have hcls : cls w (constructorFunc w c) = getKey w.funcClass f := by
    unfold cls
    rw [hgm]
  rw [hcls, hI.funcMap f c]
  refine ⟨hf, ?_⟩
  intro c2 hc2
  by_cases h4 : c2 < w.classes.length
  · exact huniq c2 h4 (Nat.ne_of_gt hc2)
  · rw [stampAt_none_of_ge w c2 (Nat.le_of_not_lt h4)]
    simp

theorem C4_witness : cls baseWorld (constructorFunc baseWorld 1) = some 1 :=
  C4_amended baseWorld built_baseWorld 1 6 (by decide) (by decide)

/-- C5: every callable member of the mapping `parent(Ancestor)` returns is a
forwarding wrapper over a member found on a collected level of the
receiver's chain; invoking the wrapper performs exactly the call of the
original member with `this` bound to the receiver on which `parent` was
called and all arguments forwarded; and every non-callable member is passed
through unchanged. -/
theorem C5_shim_forwarding (w : World) (hB : Built w) (o : Obj) (a : ClassId)
    (shims : List (String × ShimEntry))
    (hok : parent w o (some a) = Except.ok shims) :
    (∀ k e, getKey shims k = some e →
      ∃ v, (∃ lv ∈ chainOfObj w o, getKey (protoOwnOf w lv) k = some v) ∧
        ((v.isCallable = true ∧ e = ShimEntry.wrapped v o) ∨
         (v.isCallable = false ∧ e = ShimEntry.plain v))) ∧
    (∀ v args, invokeShim (ShimEntry.wrapped v o) args = some (v, o, args)) := by
  refine ⟨?_, fun v args => rfl⟩
  intro k e he
  cases hfind : (chainOfObj w o).findIdx?
      (fun lv => protoCtor w lv = protoCtor w a) with
  | none =>
    rw [parent_some, hfind] at hok
    cases hok
  | some i =>
    have hchar := getKey_parent_ok w o a i shims
      (built_chain_noDup w hB o) hfind hok k
    rw [hchar] at he
    cases hfs : ((chainOfObj w o).drop i).findSome?
        (fun lv => getKey (protoOwnOf w lv) k) with
    | none =>
      rw [hfs] at he
      cases he
    | some v =>
      rw [hfs] at he
      have hev : e = mkShim o v := (Option.some_inj.mp he).symm
      obtain ⟨lv, hlv, hglv⟩ := List.exists_of_findSome?_eq_some hfs
      refine ⟨v, ⟨lv, List.mem_of_mem_drop hlv, hglv⟩, ?_⟩
      unfold mkShim at hev
      cases hcall : v.isCallable with
      | true =>
        left
        rw [hcall] at hev
        simp at hev
        exact ⟨rfl, hev⟩
      | false =>
        right
        rw [hcall] at hev
        simp at hev
        exact ⟨rfl, hev⟩

theorem C5_witness :
    ∃ v, (∃ lv ∈ chainOfObj worldC (constructorFunc worldC 4),
        getKey (protoOwnOf worldC lv) "method" = some v) ∧
      ((v.isCallable = true ∧
        ShimEntry.wrapped (Value.fn 100) (constructorFunc worldC 4) =
          ShimEntry.wrapped v (constructorFunc worldC 4)) ∨
       (v.isCallable = false ∧
        ShimEntry.wrapped (Value.fn 100) (constructorFunc worldC 4) =
          ShimEntry.plain v)) :=
  (C5_shim_forwarding worldC built_worldC (constructorFunc worldC 4) 2
    (shimsOrEmpty (parent worldC (constructorFunc worldC 4) (some 2)))
    (by rfl)).1 "method"
    (ShimEntry.wrapped (Value.fn 100) (constructorFunc worldC 4)) (by decide)

/-- C7 as stated is false on the code: extending a class with
`options.initializer` set to the parent's own constructor function re-stamps
`_class` on that function, so `cls()` on the parent's existing instances
changes from the parent (class 2) to the new child (class 3). -/
theorem C7_counterexample :
    cls worldI1 (constructorFunc worldI1 2) = some 2 ∧
    cls worldI2 (constructorFunc worldI1 2) = some 3 ∧
    worldI2 = (extend worldI1 2
      { initializer := some 7, properties := [], classProperties := [] }).1 := by
  decide

/-- C7 amended: composition leaves every existing class descriptor — the
parent's class-level members, instance template and parent link included —
unchanged, and a sibling composed afterwards leaves the first child's
descriptor unchanged; the `cls()` behaviour of the parent's existing and
future instances is also unchanged *provided* the options' initializer is
not the parent's own constructor function (the default fresh initializer
always satisfies this). -/
theorem C7_amended (w : World) (hB : Built w) (p : ClassId)
    (hp : p < w.classes.length) (o1 o2 : Options) (ho1 : OptsOk w o1)
    (hinit : ∀ f, o1.initializer = some f → stampAt w p ≠ some f) :
    (∀ i, i < w.classes.length →
      descOf (extend w p o1).1 i = descOf w i) ∧
    constructorFunc (extend w p o1).1 p = constructorFunc w p ∧
    cls (extend w p o1).1 (constructorFunc w p) = cls w (constructorFunc w p) ∧
    descOf (extend (extend w p o1).1 p o2).1 (extend w p o1).2 =
      descOf (extend w p o1).1 (extend w p o1).2 := by
  have hI := built_inv w hB
  have hchosen_ne : ∀ fp, stampAt w p = some fp → chosenCtor w o1 ≠ fp := by
    intro fp hfp
    cases hi : o1.initializer with
    | some f =>
      rw [chosenCtor_eq_of_some w o1 f hi]
      intro hh
      subst hh
      exact hinit f hi hfp
    | none =>
      rw [chosenCtor_eq_of_none w o1 hi]
      exact Nat.ne_of_gt (hI.stampLt p fp hfp)
  refine ⟨fun i hi => descOf_extend_old w p o1 i hi, ?_, ?_, ?_⟩
  · unfold constructorFunc
    rw [show protoOwnOf (extend w p o1).1 p = protoOwnOf w p from by
      unfold protoOwnOf
      rw [descOf_extend_old w p o1 p hp]]
  · cases hs : stampAt w p with
    | some fp =>
      obtain ⟨d, hdd, hg⟩ := stampAt_inv w p fp hs
      have hown : (constructorFunc w p).ownProps = protoOwnOf w p :=
        constructorFunc_ownProps w p
          (by rw [protoOwnOf_eq w p d hdd]; exact hI.protoNoDup p d hdd)
      have hget : getKey (constructorFunc w p).ownProps "constructor" =
          some (Value.fn fp) := by
        rw [hown, protoOwnOf_eq w p d hdd, hg]
      have hgm1 : getMember (extend w p o1).1 (constructorFunc w p)
          "constructor" = some (Value.fn fp) := by
        unfold getMember
        rw [hget]
      have hgm2 : getMember w (constructorFunc w p) "constructor" =
          some (Value.fn fp) := by
        unfold getMember
        rw [hget]
      have hcls1 : cls (extend w p o1).1 (constructorFunc w p) =
          getKey (extend w p o1).1.funcClass fp := by
        unfold cls
        rw [hgm1]
      have hcls2 : cls w (constructorFunc w p) = getKey w.funcClass fp := by
        unfold cls
        rw [hgm2]
      rw [hcls1, hcls2, funcClass_extend w p o1 ho1.2]
      exact getKey_setKey_ne w.funcClass _ fp
        (fun hh => (hchosen_ne fp hs) hh.symm)
    | none =>
      have hp0 : p = 0 := by
        by_contra hne
        have hdp : descOf w p = some w.classes[p] := List.getElem?_eq_getElem hp
        obtain ⟨f, hf⟩ := hI.stampTotal p _ hdp hne
        have hs2 : stampCtor w.classes[p] = none := by
          unfold stampAt at hs
          rw [hdp] at hs
          exact hs
        unfold stampCtor at hs2
        rw [hf] at hs2
        cases hs2
      subst hp0
      have hroot : descOf w 0 = some objectDesc := hI.rootObj
      have hroot2 : descOf (extend w 0 o1).1 0 = some objectDesc := by
        rw [descOf_extend_old w 0 o1 0 hp]
        exact hroot
      have hpo : protoOwnOf w 0 = ([] : List (String × Value)) := by
        rw [protoOwnOf_eq w 0 objectDesc hroot]
        rfl
      have hobj : (constructorFunc w 0).ownProps = [] := by
        unfold constructorFunc
        rw [hpo]
        rfl
      have hgm : ∀ w3, descOf w3 0 = some objectDesc →
          protoOwnOf w3 0 = ([] : List (String × Value)) →
          getMember w3 (constructorFunc w 0) "constructor" = none := by
        intro w3 h3 h3p
        unfold getMember
        rw [hobj]
        show chainLookup w3 0 "constructor" = none
        unfold chainLookup
        rw [protoChain_cons w3 0 objectDesc h3]
        rw [show objectDesc.protoParent = none from rfl, protoChainAux_none]
        rw [List.findSome?_cons]
        rw [h3p]
        rfl
      have hcls1 : cls (extend w 0 o1).1 (constructorFunc w 0) = none := by
        unfold cls
        rw [hgm (extend w 0 o1).1 hroot2
          (by rw [protoOwnOf_eq _ 0 objectDesc hroot2]; rfl)]
      have hcls2 : cls w (constructorFunc w 0) = none := by
        unfold cls
        rw [hgm w hroot hpo]
      rw [hcls1, hcls2]
  · refine descOf_extend_old (extend w p o1).1 p o2 _ ?_
    rw [classes_length_extend w p o1]
    show w.classes.length < w.classes.length + 1
    omega

theorem C7_witness :
    cls (extend baseWorld 1
        { initializer := none, properties := [], classProperties := [] }).1
      (constructorFunc baseWorld 1) =
    cls baseWorld (constructorFunc baseWorld 1) :=
  (C7_amended baseWorld built_baseWorld 1 (by decide)
    { initializer := none, properties := [], classProperties := [] }
    { initializer := none, properties := [], classProperties := [] }
    (by decide) (fun f hf => Option.noConfusion hf)).2.2.1

end ClaimsB

end Origin
